import Mathlib

/-!
Shallow embedding of `src/streamlit_app.py` (Options_DashBoard).

The numerical core is `geo_paths` (lines 17-23): a log-Euler geometric
Brownian motion path generator built from numpy whole-array operations
(`np.log`, `np.cumsum(..., axis=0)`, `np.exp`), and the terminal
statistics at lines 83-84 (`paths[-1].mean()`, `paths[-1].std()`).

Python floats are modelled as real numbers; a (steps, N) numpy array is
modelled as a `List (List ℝ)` of `steps` rows, each of length `N`.  The
block of standard-normal draws produced by `np.random.normal(size=(steps, N))`
is passed in explicitly as the matrix `z`, so the simulator is the pure
function of parameters and draws that the specification describes.
-/

set_option linter.unusedVariables false

namespace OptionsDashboard

noncomputable section

/-- Elementwise sum of two rows, as numpy broadcasting `+` on equal-length
rows (`List.zipWith` truncates to the shorter operand, which never happens
on the rectangular arrays produced here). -/
def addRow (a b : List ℝ) : List ℝ := List.zipWith (· + ·) a b

/-- Tail of `np.cumsum(m, axis=0)`: `acc` is the running column-wise sum of
the rows already consumed; each remaining row is added to it. -/
def cumsumAux (acc : List ℝ) : List (List ℝ) → List (List ℝ)
  | [] => []
  | r :: rs => addRow acc r :: cumsumAux (addRow acc r) rs

/-- `np.cumsum(m, axis=0)`: row `i` of the result is the elementwise sum of
rows `0..i` of `m`. -/
def cumsum0 (m : List (List ℝ)) : List (List ℝ) :=
  match m with
  | [] => []
  | r :: rs => r :: cumsumAux r rs

/-- `geo_paths(S, T, r, q, sigma, steps, N)` from `src/streamlit_app.py`
lines 17-23, with the `np.random.normal(size=(steps, N))` block passed
explicitly as `z`:

    dt = T / steps
    ST = np.log(S) + np.cumsum(((r - q - sigma**2 / 2) * dt +
                                sigma * np.sqrt(dt) *
                                np.random.normal(size=(steps, N))), axis=0)
    return np.exp(ST)

`N` is used by the source only as the second dimension of the draw block. -/
def geo_paths (S T r q sigma : ℝ) (steps : ℕ) (N : ℕ) (z : List (List ℝ)) :
    List (List ℝ) :=
  let dt := T / (steps : ℝ)
  let ST := cumsum0 (z.map (fun row =>
    row.map (fun zij => (r - q - sigma ^ 2 / 2) * dt + sigma * Real.sqrt dt * zij)))
  ST.map (fun row => row.map (fun c => Real.exp (Real.log S + c)))

/-- The module-level call site of the simulator (`src/streamlit_app.py`
line 71, with line 68): `steps = 100` is fixed and the dividend/convenience
yield argument is hard-coded to `0`:

    steps = 100
    paths = geo_paths(S0, T, r, 0, sigma, steps, N)
-/
def app_paths (S0 T r sigma : ℝ) (N : ℕ) (z : List (List ℝ)) : List (List ℝ) :=
  geo_paths S0 T r 0 sigma 100 N z

/-- The `(steps, N)` block `np.random.normal(size=(steps, N))` built from a
recorded stream `g` of standard-normal draws, consumed in numpy's row-major
(C) order: cell `(i, j)` receives draw number `i * N + j`. -/
def drawBlock (g : ℕ → ℝ) (steps N : ℕ) : List (List ℝ) :=
  (List.range steps).map (fun i => (List.range N).map (fun j => g (i * N + j)))

/-- numpy `ndarray.mean` as applied to the terminal row `paths[-1]` at
`src/streamlit_app.py` line 83: the arithmetic mean `sum / N` of a nonempty
array.  On an empty array numpy emits `RuntimeWarning: Mean of empty slice`
and returns the float NaN — a value, not a raised error — modelled here as
`none`. -/
def npMean : List ℝ → Option ℝ
  | [] => none
  | x :: xs => some ((x :: xs).sum / ((x :: xs).length : ℝ))

/-- numpy `ndarray.std` as applied to the terminal row `paths[-1]` at
`src/streamlit_app.py` line 84, with numpy's default `ddof = 0` (population
convention): `sqrt(mean((a - a.mean())**2))` for a nonempty array.  On an
empty array numpy returns the float NaN (with a RuntimeWarning), not a
raised error, modelled here as `none`. -/
def npStd : List ℝ → Option ℝ
  | [] => none
  | x :: xs =>
    some (Real.sqrt
      (((x :: xs).map
          (fun y => (y - (x :: xs).sum / ((x :: xs).length : ℝ)) ^ 2)).sum /
        ((x :: xs).length : ℝ)))

theorem cumsumAux_length (acc : List ℝ) (m : List (List ℝ)) :
    (cumsumAux acc m).length = m.length := by
  induction m generalizing acc with
  | nil => rfl
  | cons r rs ih => simp [cumsumAux, ih]

theorem cumsum0_length (m : List (List ℝ)) : (cumsum0 m).length = m.length := by
  cases m with
  | nil => rfl
  | cons r rs => simp [cumsum0, cumsumAux_length]

theorem addRow_length (a b : List ℝ) :
    (addRow a b).length = min a.length b.length := by
  simp [addRow]

theorem addRow_getD (a b : List ℝ) (j : ℕ) (ha : j < a.length) (hb : j < b.length) :
    (addRow a b).getD j 0 = a.getD j 0 + b.getD j 0 := by
  have hab : j < (addRow a b).length := by
    rw [addRow_length]; exact lt_min ha hb
  rw [List.getD_eq_getElem _ _ hab, List.getD_eq_getElem _ _ ha,
    List.getD_eq_getElem _ _ hb]
  simp [addRow]

/-- `getD` of a mapped list at an in-bounds index applies the function to the
`getD` of the original list (for any defaults). -/
theorem getD_map_of_lt {α β : Type _} (f : α → β) (l : List α) (i : ℕ) (d : β) (e : α)
    (hi : i < l.length) : (l.map f).getD i d = f (l.getD i e) := by
  rw [List.getD_eq_getElem l e hi, List.getD_eq_getElem _ d (by simpa using hi),
    List.getElem_map]

/-- Rows of `cumsumAux` keep the common row length of rectangular input. -/
theorem cumsumAux_rect (N : ℕ) (acc : List ℝ) (m : List (List ℝ))
    (hacc : acc.length = N) (hrect : ∀ r ∈ m, r.length = N) :
    ∀ r ∈ cumsumAux acc m, r.length = N := by
  induction m generalizing acc with
  | nil => simp [cumsumAux]
  | cons r rs ih =>
    have hr : r.length = N := hrect r (List.mem_cons_self r rs)
    have haccr : (addRow acc r).length = N := by
      rw [addRow_length, hacc, hr, min_self]
    intro s hs
    simp only [cumsumAux, List.mem_cons] at hs
    rcases hs with rfl | hs
    · exact haccr
    · exact ih (addRow acc r) haccr (fun t ht => hrect t (List.mem_cons_of_mem r ht)) s hs

/-- Rows of `cumsum0` keep the common row length of rectangular input. -/
theorem cumsum0_rect (N : ℕ) (m : List (List ℝ)) (hrect : ∀ r ∈ m, r.length = N) :
    ∀ r ∈ cumsum0 m, r.length = N := by
  cases m with
  | nil => simp [cumsum0]
  | cons r rs =>
    have hr : r.length = N := hrect r (List.mem_cons_self r rs)
    intro s hs
    simp only [cumsum0, List.mem_cons] at hs
    rcases hs with rfl | hs
    · exact hr
    · exact cumsumAux_rect N r rs hr (fun t ht => hrect t (List.mem_cons_of_mem r ht)) s hs

/-- Entry `(i, j)` of `cumsumAux acc m` is `acc j` plus the sum of entries
`(k, j)` of `m` for `k ≤ i`. -/
theorem cumsumAux_getD (N : ℕ) (acc : List ℝ) (m : List (List ℝ)) (i j : ℕ)
    (hacc : acc.length = N) (hrect : ∀ r ∈ m, r.length = N)
    (hi : i < m.length) (hj : j < N) :
    ((cumsumAux acc m).getD i []).getD j 0 =
      acc.getD j 0 + ∑ k in Finset.range (i + 1), ((m.getD k []).getD j 0) := by
  induction m generalizing acc i with
  | nil => simp at hi
  | cons r rs ih =>
    have hr : r.length = N := hrect r (List.mem_cons_self r rs)
    have haccr : (addRow acc r).length = N := by
      rw [addRow_length, hacc, hr, min_self]
    cases i with
    | zero =>
      simp only [cumsumAux, List.getD_cons_zero]
      rw [addRow_getD acc r j (by omega) (by omega)]
      simp
    | succ i =>
      have hi' : i < rs.length := by simp only [List.length_cons] at hi; omega
      simp only [cumsumAux, List.getD_cons_succ]
      rw [ih (addRow acc r) i haccr
        (fun t ht => hrect t (List.mem_cons_of_mem r ht)) hi']
      rw [addRow_getD acc r j (by omega) (by omega)]
      conv_rhs => rw [Finset.sum_range_succ']
      simp only [List.getD_cons_succ, List.getD_cons_zero]
      ring

/-- Entry `(i, j)` of `np.cumsum(m, axis=0)` is the sum of entries `(k, j)`
of `m` for `k ≤ i`: the prefix-sum along the time axis. -/
theorem cumsum0_getD (N : ℕ) (m : List (List ℝ)) (i j : ℕ)
    (hrect : ∀ r ∈ m, r.length = N) (hi : i < m.length) (hj : j < N) :
    ((cumsum0 m).getD i []).getD j 0 =
      ∑ k in Finset.range (i + 1), ((m.getD k []).getD j 0) := by
  cases m with
  | nil => simp at hi
  | cons r rs =>
    have hr : r.length = N := hrect r (List.mem_cons_self r rs)
    cases i with
    | zero => simp [cumsum0]
    | succ i =>
      have hi' : i < rs.length := by simp only [List.length_cons] at hi; omega
      simp only [cumsum0, List.getD_cons_succ]
      rw [cumsumAux_getD N r rs i j hr
        (fun t ht => hrect t (List.mem_cons_of_mem r ht)) hi' hj]
      conv_rhs => rw [Finset.sum_range_succ']
      simp only [List.getD_cons_succ, List.getD_cons_zero]
      ring

/-- Closed form of every entry of `geo_paths`: entry `(i, j)` equals
`S * exp(Σ_{k ≤ i} ((r - q - σ²/2)·dt + σ·√dt·z[k][j]))` with `dt = T/steps`,
provided `S > 0` and `z` is a `(steps, N)` matrix with `i < steps`, `j < N`. -/
theorem geo_paths_getD (S T r q sigma : ℝ) (steps N : ℕ) (z : List (List ℝ))
    (hS : 0 < S) (hlen : z.length = steps) (hrect : ∀ row ∈ z, row.length = N)
    (i j : ℕ) (hi : i < steps) (hj : j < N) :
    ((geo_paths S T r q sigma steps N z).getD i []).getD j 0 =
      S * Real.exp (∑ k in Finset.range (i + 1),
        ((r - q - sigma ^ 2 / 2) * (T / (steps : ℝ)) +
          sigma * Real.sqrt (T / (steps : ℝ)) * ((z.getD k []).getD j 0))) := by
  subst hlen
  set dt : ℝ := T / (z.length : ℝ) with hdt
  set F : ℝ → ℝ := fun zij => (r - q - sigma ^ 2 / 2) * dt + sigma * Real.sqrt dt * zij
    with hF
  set inc := z.map (fun row => row.map F) with hinc
  have hinclen : inc.length = z.length := by simp [hinc]
  have hincrect : ∀ row ∈ inc, row.length = N := by
    intro row hrow
    rcases List.mem_map.mp hrow with ⟨row0, h0, rfl⟩
    simpa using hrect row0 h0
  have hSTlen : (cumsum0 inc).length = z.length := by rw [cumsum0_length, hinclen]
  have hSTrect : ∀ row ∈ cumsum0 inc, row.length = N := cumsum0_rect N inc hincrect
  have hgp : geo_paths S T r q sigma z.length N z =
      (cumsum0 inc).map (fun row => row.map (fun c => Real.exp (Real.log S + c))) := rfl
  rw [hgp, getD_map_of_lt _ _ i [] [] (by rw [hSTlen]; exact hi)]
  have hrowlen : ((cumsum0 inc).getD i []).length = N := by
    apply hSTrect
    rw [List.getD_eq_getElem _ _ (by rw [hSTlen]; exact hi)]
    exact List.getElem_mem _
  rw [getD_map_of_lt _ _ j 0 0 (by rw [hrowlen]; exact hj)]
  rw [cumsum0_getD N inc i j hincrect (by rw [hinclen]; exact hi) hj]
  have hsum : ∀ k ∈ Finset.range (i + 1), (inc.getD k []).getD j 0 =
      (r - q - sigma ^ 2 / 2) * dt + sigma * Real.sqrt dt * ((z.getD k []).getD j 0) := by
    intro k hk
    have hk' : k < z.length := by
      have := Finset.mem_range.mp hk
      omega
    have hzk : (z.getD k []).length = N := by
      apply hrect
      rw [List.getD_eq_getElem _ _ hk']
      exact List.getElem_mem _
    rw [hinc, getD_map_of_lt _ _ k [] [] hk',
      getD_map_of_lt F _ j 0 0 (by rw [hzk]; exact hj)]
  rw [Finset.sum_congr rfl hsum, Real.exp_add, Real.exp_log hS]

/-- `geo_paths` returns one row per row of the draw block: `steps` rows. -/
theorem geo_paths_length (S T r q sigma : ℝ) (steps N : ℕ) (z : List (List ℝ))
    (hlen : z.length = steps) :
    (geo_paths S T r q sigma steps N z).length = steps := by
  simp [geo_paths, cumsum0_length, hlen]

/-- `geo_paths` keeps the common row length `N` of a rectangular draw block. -/
theorem geo_paths_rect (S T r q sigma : ℝ) (steps N : ℕ) (z : List (List ℝ))
    (hrect : ∀ row ∈ z, row.length = N) :
    ∀ row ∈ geo_paths S T r q sigma steps N z, row.length = N := by
  intro row hrow
  simp only [geo_paths] at hrow
  rcases List.mem_map.mp hrow with ⟨row0, h0, rfl⟩
  have h1 : row0.length = N := by
    refine cumsum0_rect N _ ?_ row0 h0
    intro t ht
    rcases List.mem_map.mp ht with ⟨t0, ht0, rfl⟩
    simpa using hrect t0 ht0
  simpa using h1

/-- `cumsumAux` starting from the empty accumulator maps rows of length 0 to
rows of length 0 (the `N = 0` degenerate case). -/
theorem cumsumAux_nil_rows (n : ℕ) :
    cumsumAux [] (List.replicate n ([] : List ℝ)) = List.replicate n [] := by
  induction n with
  | zero => rfl
  | succ n ih => simp [List.replicate_succ, cumsumAux, addRow, ih]

/-- `np.cumsum` of a stack of empty rows is the same stack of empty rows. -/
theorem cumsum0_nil_rows (n : ℕ) :
    cumsum0 (List.replicate n ([] : List ℝ)) = List.replicate n [] := by
  cases n with
  | zero => rfl
  | succ n => simp [List.replicate_succ, cumsum0, cumsumAux_nil_rows]

/-- C1: for every `S0 > 0`, `sigma > 0`, `T > 0`, `steps ≥ 1`, `N ≥ 1`, any
`r` and `q`, and every `(steps, N)` draw matrix `z`, the simulator satisfies
`path[i][j] = S0 * exp(Σ_{k ≤ i} ((r - q - σ²/2)·(T/steps) + σ·√(T/steps)·z[k][j]))`
for all `0 ≤ i < steps`, `0 ≤ j < N` — the exact log-Euler GBM
discretization (per-step log-increments, prefix-summed along the time axis,
then exponentiated).  (Finiteness of `r`, `q` and of the draws is automatic
in the real-number model.) -/
theorem C1_log_euler_discretization (S T r q sigma : ℝ) (steps N : ℕ)
    (z : List (List ℝ)) (i j : ℕ)
    (hS : 0 < S) (hsigma : 0 < sigma) (hT : 0 < T) (hsteps : 1 ≤ steps)
    (hN : 1 ≤ N) (hlen : z.length = steps) (hrect : ∀ row ∈ z, row.length = N)
    (hi : i < steps) (hj : j < N) :
    ((geo_paths S T r q sigma steps N z).getD i []).getD j 0 =
      S * Real.exp (∑ k in Finset.range (i + 1),
        ((r - q - sigma ^ 2 / 2) * (T / (steps : ℝ)) +
          sigma * Real.sqrt (T / (steps : ℝ)) * ((z.getD k []).getD j 0))) :=
  geo_paths_getD S T r q sigma steps N z hS hlen hrect i j hi hj

/-- C1 witness: the discretization formula at the concrete run
`S0 = 100, T = 1, r = 0.05, q = 0.01, σ = 0.2, steps = 1, N = 1` with the
single draw `z = [[2]]`, at entry `(0, 0)`. -/
theorem C1_log_euler_discretization_witness :
    ((geo_paths 100 1 0.05 0.01 0.2 1 1 [[2]]).getD 0 []).getD 0 0 =
      100 * Real.exp (∑ k in Finset.range (0 + 1),
        ((0.05 - 0.01 - 0.2 ^ 2 / 2) * (1 / ((1 : ℕ) : ℝ)) +
          0.2 * Real.sqrt (1 / ((1 : ℕ) : ℝ)) *
            ((([[2]] : List (List ℝ)).getD k []).getD 0 0))) :=
  C1_log_euler_discretization 100 1 0.05 0.01 0.2 1 1 [[2]] 0 0
    (by norm_num) (by norm_num) (by norm_num) (le_refl 1) (le_refl 1) rfl
    (by
      intro row hrow
      rw [List.mem_singleton] at hrow
      subst hrow
      rfl)
    (by norm_num) (by norm_num)

/-- C2: at `S0 = 100, T = 1, r = 0.05, q = 0, σ = 0.2, steps = 100, N = 1`
with all draws zero, the simulator returns
`path[i] = 100 * exp((0.05 - 0.02)·(i+1)/100)` for every `i < 100` — pure
drift, the first stored entry already one step after `S0`. -/
theorem C2_pure_drift (i : ℕ) (hi : i < 100) :
    ((geo_paths 100 1 0.05 0 0.2 100 1 (List.replicate 100 [0])).getD i []).getD 0 0 =
      100 * Real.exp ((0.05 - 0.02) * ((i : ℝ) + 1) / 100) := by
  have hz : (List.replicate 100 ([0] : List ℝ)).length = 100 := by simp
  have hrect : ∀ row ∈ List.replicate 100 ([0] : List ℝ), row.length = 1 := by
    intro row hrow
    rw [List.eq_of_mem_replicate hrow]
    rfl
  rw [geo_paths_getD 100 1 0.05 0 0.2 100 1 _ (by norm_num) hz hrect i 0 hi
    (by norm_num)]
  have hzk : ∀ k ∈ Finset.range (i + 1),
      ((List.replicate 100 ([0] : List ℝ)).getD k []).getD 0 0 = 0 := by
    intro k hk
    have hk' : k < 100 := by
      have := Finset.mem_range.mp hk
      omega
    have hrowk : (List.replicate 100 ([0] : List ℝ)).getD k [] = [0] := by
      rw [List.getD_eq_getElem _ _ (by simpa using hk'), List.getElem_replicate]
    rw [hrowk]
    rfl
  have hterm : ∀ k ∈ Finset.range (i + 1),
      ((0.05 - 0 - 0.2 ^ 2 / 2) * ((1 : ℝ) / ((100 : ℕ) : ℝ)) +
        0.2 * Real.sqrt ((1 : ℝ) / ((100 : ℕ) : ℝ)) *
          ((List.replicate 100 ([0] : List ℝ)).getD k []).getD 0 0) =
      (0.05 - 0 - 0.2 ^ 2 / 2) * ((1 : ℝ) / ((100 : ℕ) : ℝ)) := by
    intro k hk
    rw [hzk k hk]
    ring
  rw [Finset.sum_congr rfl hterm, Finset.sum_const, Finset.card_range,
    nsmul_eq_mul]
  congr 1
  push_cast
  ring_nf

/-- C2 witness: the pure-drift value at step index `i = 3`. -/
theorem C2_pure_drift_witness :
    ((geo_paths 100 1 0.05 0 0.2 100 1 (List.replicate 100 [0])).getD 3 []).getD 0 0 =
      100 * Real.exp ((0.05 - 0.02) * (((3 : ℕ) : ℝ) + 1) / 100) :=
  C2_pure_drift 3 (by norm_num)

/-- C3: for every valid parameter set and every draw matrix of shape
`(steps, N)`, the simulator returns an ensemble of shape exactly
`(steps, N)` in which every entry is strictly positive (finiteness is
automatic in the real-number model). -/
theorem C3_shape_and_positivity (S T r q sigma : ℝ) (steps N : ℕ)
    (z : List (List ℝ))
    (hS : 0 < S) (hsigma : 0 < sigma) (hT : 0 < T) (hsteps : 1 ≤ steps)
    (hN : 1 ≤ N) (hlen : z.length = steps) (hrect : ∀ row ∈ z, row.length = N) :
    (geo_paths S T r q sigma steps N z).length = steps ∧
    (∀ row ∈ geo_paths S T r q sigma steps N z, row.length = N) ∧
    (∀ i < steps, ∀ j < N,
      0 < ((geo_paths S T r q sigma steps N z).getD i []).getD j 0) := by
  refine ⟨geo_paths_length S T r q sigma steps N z hlen,
    geo_paths_rect S T r q sigma steps N z hrect, ?_⟩
  intro i hi j hj
  rw [geo_paths_getD S T r q sigma steps N z hS hlen hrect i j hi hj]
  exact mul_pos hS (Real.exp_pos _)

/-- C3 witness: shape and positivity at the concrete run
`S0 = 100, T = 1, r = 0.05, q = 0, σ = 0.2, steps = 1, N = 1`, `z = [[0]]`. -/
theorem C3_shape_and_positivity_witness :
    (geo_paths 100 1 0.05 0 0.2 1 1 [[0]]).length = 1 ∧
    (∀ row ∈ geo_paths 100 1 0.05 0 0.2 1 1 [[0]], row.length = 1) ∧
    (∀ i < 1, ∀ j < 1,
      0 < ((geo_paths 100 1 0.05 0 0.2 1 1 [[0]]).getD i []).getD j 0) :=
  C3_shape_and_positivity 100 1 0.05 0 0.2 1 1 [[0]]
    (by norm_num) (by norm_num) (by norm_num) (le_refl 1) (le_refl 1) rfl
    (by
      intro row hrow
      rw [List.mem_singleton] at hrow
      subst hrow
      rfl)

/-- C4 counterexample: `geo_paths` performs no parameter validation.  Called
with `N = 0` (violating the precondition `N ≥ 1`) and otherwise valid
parameters `S0 = 100, T = 1, r = 0.05, q = 0, σ = 0.2, steps = 2`, it
returns an ensemble of two empty rows — shape `(2, 0)` — rather than any
`InvalidParameter` error (no error path exists in the source; the claim as
stated is false on the code). -/
theorem C4_counterexample :
    geo_paths 100 1 0.05 0 0.2 2 0 [[], []] = [[], []] := rfl

/-- C4 amended: the simulator performs no precondition validation and has no
error channel; called with `N = 0` (violating `N ≥ 1`) and a draw block of
`steps` empty rows, it returns an ensemble of `steps` empty rows (shape
`(steps, 0)`) instead of failing with `InvalidParameter`. -/
theorem C4_no_validation (S T r q sigma : ℝ) (steps : ℕ) (z : List (List ℝ))
    (hlen : z.length = steps) (hrect : ∀ row ∈ z, row.length = 0) :
    geo_paths S T r q sigma steps 0 z = List.replicate steps [] := by
  have hz : z = List.replicate steps ([] : List ℝ) := by
    rw [List.eq_replicate_iff]
    exact ⟨hlen, fun b hb => List.length_eq_zero.mp (hrect b hb)⟩
  rw [hz]
  simp [geo_paths, List.map_replicate, cumsum0_nil_rows]

/-- C4 witness: the no-validation behavior at the concrete violating input
`N = 0`, `steps = 2`, draws `[[], []]`. -/
theorem C4_no_validation_witness :
    geo_paths 100 1 0.05 0 0.2 2 0 [[], []] = List.replicate 2 [] :=
  C4_no_validation 100 1 0.05 0 0.2 2 [[], []] rfl
    (by
      intro row hrow
      simp only [List.mem_cons, List.not_mem_nil, or_false] at hrow
      rcases hrow with rfl | rfl <;> rfl)

/-- C5: for every ensemble with `N ≥ 1` terminal prices, the reported mean
is the arithmetic mean `(1/N)·Σ x_j` and the reported standard deviation
uses the population convention `sqrt((1/N)·Σ (x_j - mean)²)` — numpy's
`ndarray.std` default `ddof = 0`, dividing by `N`, not `N - 1`. -/
theorem C5_population_stats (N : ℕ) (xs : List ℝ)
    (hlen : xs.length = N) (hN : 1 ≤ N) :
    npMean xs = some ((1 / (N : ℝ)) * xs.sum) ∧
    npStd xs = some (Real.sqrt ((1 / (N : ℝ)) *
      ((xs.map (fun y => (y - (1 / (N : ℝ)) * xs.sum) ^ 2)).sum))) := by
  cases xs with
  | nil =>
    simp only [List.length_nil] at hlen
    omega
  | cons x xs =>
    have hlenR : (((x :: xs).length : ℕ) : ℝ) = (N : ℝ) := by
      exact_mod_cast congrArg (fun n : ℕ => (n : ℝ)) hlen
    have hone : ∀ a : ℝ, a / (N : ℝ) = 1 / (N : ℝ) * a := fun a => by
      rw [one_div_mul_eq_div]
    refine ⟨?_, ?_⟩
    · simp only [npMean]
      rw [hlenR, hone]
    · simp only [npStd]
      have hmap : (fun y : ℝ => (y - (x :: xs).sum / (N : ℝ)) ^ 2) =
          (fun y : ℝ => (y - 1 / (N : ℝ) * (x :: xs).sum) ^ 2) := by
        funext y
        rw [hone]
      rw [hlenR, hmap, hone]

/-- C5 witness: the population statistics on the two terminal prices
`[1, 3]`. -/
theorem C5_population_stats_witness :
    npMean [1, 3] = some ((1 / ((2 : ℕ) : ℝ)) * ([1, 3] : List ℝ).sum) ∧
    npStd [1, 3] = some (Real.sqrt ((1 / ((2 : ℕ) : ℝ)) *
      ((([1, 3] : List ℝ).map
        (fun y => (y - (1 / ((2 : ℕ) : ℝ)) * ([1, 3] : List ℝ).sum) ^ 2)).sum))) :=
  C5_population_stats 2 [1, 3] rfl (by norm_num)

/-- C6 counterexample: applied to an ensemble with `N = 0` terminal prices,
the code's reduction (`paths[-1].mean()` / `paths[-1].std()`) does not fail
with an `EmptyEnsemble` error — no such error exists anywhere in the source.
numpy evaluates the mean and std of the empty slice to the float NaN
(emitting only a `RuntimeWarning`), modelled as `none`. -/
theorem C6_counterexample :
    npMean ([] : List ℝ) = none ∧ npStd ([] : List ℝ) = none :=
  ⟨rfl, rfl⟩

/-- C6 amended: when the terminal-statistics reduction is applied to an
ensemble with `N = 0` paths, it returns NaN for both mean and standard
deviation (numpy's quiet empty-slice behavior) rather than failing with an
`EmptyEnsemble` error. -/
theorem C6_empty_is_nan (xs : List ℝ) (h : xs.length = 0) :
    npMean xs = none ∧ npStd xs = none := by
  have hnil : xs = [] := List.length_eq_zero.mp h
  subst hnil
  exact ⟨rfl, rfl⟩

/-- C6 witness: the NaN behavior at the concrete empty terminal row. -/
theorem C6_empty_is_nan_witness :
    ([] : List ℝ).length = 0 ∧ npMean ([] : List ℝ) = none ∧
      npStd ([] : List ℝ) = none :=
  ⟨rfl, C6_empty_is_nan [] rfl⟩

/-- C7: on a single-path ensemble (`N = 1`), the reduction returns a
standard deviation of exactly `0` and a mean equal to the sole terminal
value. -/
theorem C7_single_path (x : ℝ) : npMean [x] = some x ∧ npStd [x] = some 0 := by
  constructor
  · simp [npMean]
  · simp [npStd]

/-- C8: no aliasing between paths — for two draw matrices that agree on
column `j`, the simulated ensembles agree on column `j`; column `j` is
determined solely by the scalar parameters and column `j` of the draws. -/
theorem C8_no_aliasing (S T r q sigma : ℝ) (steps N : ℕ)
    (z w : List (List ℝ)) (i j : ℕ)
    (hS : 0 < S)
    (hlen : z.length = steps) (hrect : ∀ row ∈ z, row.length = N)
    (hlenw : w.length = steps) (hrectw : ∀ row ∈ w, row.length = N)
    (hagree : ∀ k < steps, (z.getD k []).getD j 0 = (w.getD k []).getD j 0)
    (hi : i < steps) (hj : j < N) :
    ((geo_paths S T r q sigma steps N z).getD i []).getD j 0 =
      ((geo_paths S T r q sigma steps N w).getD i []).getD j 0 := by
  rw [geo_paths_getD S T r q sigma steps N z hS hlen hrect i j hi hj,
    geo_paths_getD S T r q sigma steps N w hS hlenw hrectw i j hi hj]
  have hsum : ∀ k ∈ Finset.range (i + 1),
      ((r - q - sigma ^ 2 / 2) * (T / (steps : ℝ)) +
        sigma * Real.sqrt (T / (steps : ℝ)) * ((z.getD k []).getD j 0)) =
      ((r - q - sigma ^ 2 / 2) * (T / (steps : ℝ)) +
        sigma * Real.sqrt (T / (steps : ℝ)) * ((w.getD k []).getD j 0)) := by
    intro k hk
    have hk' : k < steps := by
      have := Finset.mem_range.mp hk
      omega
    rw [hagree k hk']
  rw [Finset.sum_congr rfl hsum]

/-- C8 witness: two concrete `(2, 2)` draw matrices that agree on column 0
but differ on column 1 produce the same column 0 of the ensemble. -/
theorem C8_no_aliasing_witness :
    ((geo_paths 100 1 0 0 1 2 2 [[0, 1], [2, 3]]).getD 1 []).getD 0 0 =
      ((geo_paths 100 1 0 0 1 2 2 [[0, 5], [2, 7]]).getD 1 []).getD 0 0 :=
  C8_no_aliasing 100 1 0 0 1 2 2 [[0, 1], [2, 3]] [[0, 5], [2, 7]] 1 0
    (by norm_num) rfl
    (by
      intro row hrow
      simp only [List.mem_cons, List.not_mem_nil, or_false] at hrow
      rcases hrow with rfl | rfl <;> rfl)
    rfl
    (by
      intro row hrow
      simp only [List.mem_cons, List.not_mem_nil, or_false] at hrow
      rcases hrow with rfl | rfl <;> rfl)
    (by intro k hk; interval_cases k <;> rfl)
    (by norm_num) (by norm_num)

/-- C9: determinism — the simulator is a pure function of its parameters and
the recorded draw stream; two runs whose streams agree on the `steps·N`
draws actually consumed produce identical ensembles. -/
theorem C9_determinism (S T r q sigma : ℝ) (steps N : ℕ) (g g2 : ℕ → ℝ)
    (hagree : ∀ n < steps * N, g n = g2 n) :
    geo_paths S T r q sigma steps N (drawBlock g steps N) =
      geo_paths S T r q sigma steps N (drawBlock g2 steps N) := by
  have hblock : drawBlock g steps N = drawBlock g2 steps N := by
    unfold drawBlock
    apply List.map_congr_left
    intro i hi
    have hi' : i < steps := List.mem_range.mp hi
    apply List.map_congr_left
    intro j hj
    have hj' : j < N := List.mem_range.mp hj
    apply hagree
    calc i * N + j < i * N + N := by omega
    _ = (i + 1) * N := by ring
    _ ≤ steps * N := Nat.mul_le_mul_right N hi'
  rw [hblock]

/-- C9 witness: two concrete streams that agree on the single consumed draw
(but differ beyond it) produce identical output for `steps = N = 1`. -/
theorem C9_determinism_witness :
    geo_paths 100 1 0 0 1 1 1 (drawBlock (fun _ => 0) 1 1) =
      geo_paths 100 1 0 0 1 1 1 (drawBlock (fun n => if n = 0 then 0 else 1) 1 1) :=
  C9_determinism 100 1 0 0 1 1 1 (fun _ => 0) (fun n => if n = 0 then 0 else 1)
    (by
      intro n hn
      have hn0 : n = 0 := by omega
      subst hn0
      simp)

/-- C10: the application invokes the simulator with the dividend yield
hard-coded to `q = 0` (and `steps = 100`), so at the public interface every
entry follows the drift `(r - σ²/2)·(T/steps)`: no nonzero yield is
reachable regardless of user input. -/
theorem C10_yield_hardcoded_zero (S0 T r sigma : ℝ) (N : ℕ)
    (z : List (List ℝ)) (i j : ℕ)
    (hS : 0 < S0) (hlen : z.length = 100) (hrect : ∀ row ∈ z, row.length = N)
    (hi : i < 100) (hj : j < N) :
    ((app_paths S0 T r sigma N z).getD i []).getD j 0 =
      S0 * Real.exp (∑ k in Finset.range (i + 1),
        ((r - sigma ^ 2 / 2) * (T / ((100 : ℕ) : ℝ)) +
          sigma * Real.sqrt (T / ((100 : ℕ) : ℝ)) * ((z.getD k []).getD j 0))) := by
  rw [show app_paths S0 T r sigma N z = geo_paths S0 T r 0 sigma 100 N z from rfl]
  rw [geo_paths_getD S0 T r 0 sigma 100 N z hS hlen hrect i j hi hj]
  have hsum : ∀ k ∈ Finset.range (i + 1),
      ((r - 0 - sigma ^ 2 / 2) * (T / ((100 : ℕ) : ℝ)) +
        sigma * Real.sqrt (T / ((100 : ℕ) : ℝ)) * ((z.getD k []).getD j 0)) =
      ((r - sigma ^ 2 / 2) * (T / ((100 : ℕ) : ℝ)) +
        sigma * Real.sqrt (T / ((100 : ℕ) : ℝ)) * ((z.getD k []).getD j 0)) := by
    intro k hk
    ring
  rw [Finset.sum_congr rfl hsum]

/-- C10 witness: the `q = 0` drift formula at the concrete public-interface
run `S0 = 100, T = 1, r = 0.05, σ = 0.2, N = 1` with all draws zero, at
entry `(0, 0)`. -/
theorem C10_yield_hardcoded_zero_witness :
    ((app_paths 100 1 0.05 0.2 1 (List.replicate 100 [0])).getD 0 []).getD 0 0 =
      100 * Real.exp (∑ k in Finset.range (0 + 1),
        ((0.05 - 0.2 ^ 2 / 2) * (1 / ((100 : ℕ) : ℝ)) +
          0.2 * Real.sqrt (1 / ((100 : ℕ) : ℝ)) *
            (((List.replicate 100 ([0] : List ℝ)).getD k []).getD 0 0))) :=
  C10_yield_hardcoded_zero 100 1 0.05 0.2 1 (List.replicate 100 [0]) 0 0
    (by norm_num) (by simp)
    (by
      intro row hrow
      rw [List.eq_of_mem_replicate hrow]
      rfl)
    (by norm_num) (by norm_num)

end

end OptionsDashboard
